import Mathlib

/-!
Verification of the real-time speech turn-taking pipeline of this repository
against its natural-language specification.  The Python sources embedded here
are `src/services/audio_service.py` (class `AudioService`),
`src/entities/audio_record_result.py` (class `AudioRecordResult`) and
`src/connectors/openai/stream_splitter.py` (class `StreamSplitter`).

Modelling conventions:
- PCM sample buffers (NumPy int16 arrays) are `List Int`; an empty list models
  the empty array `np.array([], dtype=np.int16)` used as the end signal.
- Strings are `List Char`; the regular expressions appearing in the source are
  embedded as explicit matching functions with the exact semantics of the
  specific pattern used (first match, greedy or lazy exactly as written).
- Wall-clock time in the recorder is modelled in whole milliseconds: each
  blocking `stream.read` of one frame advances time by one frame duration, so
  after `n` reads the elapsed time is `n * frameMs` ms.  Float arithmetic of
  the source (`silence_duration`, seconds) is modelled exactly in ms.
- Exceptions raised by a method are modelled by an explicit `raised` outcome.
- Thread interleavings are modelled by explicit schedules: the order in which
  synthesis tasks acquire `transcription_lock`, and for the stream splitter a
  function from consumer loop iteration to producer progress.
-/

/-! ### Synthesis / playback queue (AudioService.process_speech, play_audio)

`process_speech` synthesizes one sentence while holding `transcription_lock`
and appends the resulting sample buffer to the plain FIFO `audio_queue`; on a
synthesis failure it appends the empty array (the same value used as the end
signal) and re-raises.  `play_audio` repeatedly takes buffers from the queue,
stops on a buffer of size 0, and otherwise writes the buffer to the output
device.  Segments carry no sequence numbers and the queue is FIFO, so the
enqueue order is the order in which the tasks acquire the lock. -/

/-- What one `process_speech` call enqueues on `audio_queue`: the synthesized
samples on success (`some samples`), the empty array on a TTS failure
(`none`, the `except` branch of `process_speech`). -/
def processSpeechEnqueue (tts : Option (List Int)) : List Int :=
  match tts with
  | some samples => samples
  | none => []

/-- The contents of `audio_queue` after all synthesis tasks have run, given
the order `lockOrder` in which the tasks acquired `transcription_lock` (each
task enqueues while holding the lock), followed by the final stop signal that
`stop_audio` appends in the `finally` block of `play_stream_audio`. -/
def synthesisQueue (lockOrder : List Nat) (tts : Nat → Option (List Int)) :
    List (List Int) :=
  lockOrder.map (fun i => processSpeechEnqueue (tts i)) ++ [[]]

/-- `AudioService.play_audio`: dequeue buffers in FIFO order, stop at the
first buffer of size 0, write every other buffer to the output device.  The
result is the list of buffers written, in the order they are written. -/
def playAudio : List (List Int) → List (List Int)
  | [] => []
  | a :: rest => if a.length = 0 then [] else a :: playAudio rest

/-- A synthesis outcome assigning sentence `i` the one-sample buffer `[i]`. -/
def segOf : Nat → Option (List Int) :=
  fun i => some [Int.ofNat i]

/-- A synthesis outcome where the TTS call for sentence 2 fails and every
other sentence `i` yields the buffer `[i]`. -/
def ttsFail2 : Nat → Option (List Int) :=
  fun i => if i = 2 then none else some [Int.ofNat i]

/-! ### StreamSplitter (src/connectors/openai/stream_splitter.py)

`StreamSplitter.start` runs a background thread appending each chunk of the
source stream to `self.chunks` and finally setting `self.finished = True`.
`StreamSplitter.get` is a consumer generator: starting from `index = 0` it
loops `while not self.finished or index < len(self.chunks)`, yielding
`self.chunks[index]` and incrementing `index` whenever `index < len(chunks)`,
otherwise spinning.  We model the shared state as a function of the number of
producer steps executed: step `t ≤ K` has appended the first `t` chunks, and
the flag is set from step `K + 1` on.  A consumer schedule is a function `f`
from the consumer loop iteration to the number of producer steps completed at
that moment (monotone for a real interleaving). -/

/-- Shared state of a `StreamSplitter`: the append-only chunk buffer and the
producer-finished flag. -/
structure SplitterState (α : Type) where
  chunks : List α
  finished : Bool
deriving DecidableEq

/-- The shared state after the producer thread of `StreamSplitter.start` has
executed `t` atomic steps on source `src`: steps `1..K` append one chunk
each, step `K + 1` sets `finished`. -/
def prodState {α : Type} (src : List α) (t : Nat) : SplitterState α :=
  ⟨src.take t, decide (src.length < t)⟩

/-- One consumer of `StreamSplitter.get`, run with explicit fuel.  `n` is the
loop iteration counter (indexing the schedule `f`), `i` is the generator
variable `index`, `acc` the chunks yielded so far.  Each iteration reads the
shared state `prodState src (f n)` and executes one iteration of the `while`
loop of `get`; the run returns `some acc` when the loop condition fails
(consumer terminates) and `none` if the fuel runs out first. -/
def consumerRun {α : Type} (src : List α) (f : Nat → Nat) :
    Nat → Nat → Nat → List α → Option (List α)
  | 0, _, _, _ => none
  | fuel + 1, n, i, acc =>
    let st := prodState src (f n)
    if st.finished = false ∨ i < st.chunks.length then
      if i < st.chunks.length then
        consumerRun src f fuel (n + 1) (i + 1) (acc ++ (st.chunks.drop i).take 1)
      else
        consumerRun src f fuel (n + 1) i acc
    else
      some acc

/-- An eager consumer schedule: the producer has completed `n` steps by the
consumer iteration `n`. -/
def eagerSched : Nat → Nat :=
  fun n => n

/-- A delayed consumer schedule: the producer runs twice as fast as the
consumer iterates (the consumer starts after the producer made progress). -/
def delaySched : Nat → Nat :=
  fun n => 2 * n

/-! ### Adaptive recorder (AudioService.record, AudioRecordResult)

`record` reads fixed-size frames from the input stream in a loop, appending
every frame to `audio_frames` before any check.  A frame classified as speech
resets the silence counter and starts recording; while not recording, an
elapsed time above 3 seconds returns `AudioRecordResult(success=False,
silence_timeout=True)`; while recording, a silence counter above
`max_silence_duration` breaks out of the loop, after which the method raises
`AudioRecordingFailed` when `audio_frames` is empty and otherwise returns
`AudioRecordResult(success=True, data=concatenation of all frames)`.
The frame source is a finite list; its exhaustion models the device ceasing
to yield frames, which falls through to the same post-loop code.  Durations
are in milliseconds; the hard-coded 3-second onset window is 3000 ms. -/

/-- One PCM frame: its voice-activity classification (`is_speech`) and its
samples. -/
structure Frame where
  speech : Bool
  samples : List Int
deriving DecidableEq

/-- `AudioRecordResult` (src/entities/audio_record_result.py): the fields of
the Python class, verbatim.  There is no outcome enumeration beyond these
fields. -/
structure AudioRecordResult where
  success : Bool
  data : Option (List Int)
  silence_timeout : Bool
deriving DecidableEq

/-- The exceptions `record` can raise. -/
inductive RecordError where
  | audioRecordingFailed
deriving DecidableEq

/-- Outcome of a call to `record`: a normal return of an `AudioRecordResult`,
or a raised exception. -/
inductive RecordReturn where
  | ok (r : AudioRecordResult)
  | raised (e : RecordError)
deriving DecidableEq

/-- Whether a `RecordReturn` is a normal return (no exception raised). -/
def RecordReturn.isOk : RecordReturn → Bool
  | .ok _ => true
  | .raised _ => false

/-- A call to `record` together with the number of frames it read from the
device (every frame read is appended to `audio_frames` before any check, so
this also counts the appends; elapsed wall-clock time is `framesRead *
frameMs` ms under the timing model). -/
structure RecordTrace where
  result : RecordReturn
  framesRead : Nat
deriving DecidableEq

/-- `np.concatenate(audio_frames, axis=0)`: all samples of the captured
frames, in capture order. -/
def audioOf (frames : List Frame) : List Int :=
  (frames.map Frame.samples).flatten

/-- The code after the `while` loop of `record`: raise `AudioRecordingFailed`
when no frame was captured, otherwise return success with the concatenated
frames. -/
def recordFinish (audioFrames : List Frame) (n : Nat) : RecordTrace :=
  if audioFrames.isEmpty then
    ⟨.raised .audioRecordingFailed, n⟩
  else
    ⟨.ok ⟨true, some (audioOf audioFrames), false⟩, n⟩

/-- The `while True` loop of `record`.  `src` is the remaining frame source,
`audioFrames` the frames appended so far (capture order), `silenceMs` the
silence counter in ms, `started` the `recording_started` flag, and `n` the
number of frames read so far (elapsed time is `n * frameMs` ms).  Loop body,
in source order: read and append the frame; if it is speech, zero the
silence counter and set `recording_started`; if not started and elapsed
time exceeds 3000 ms, return the timeout result; if started, break out of
the loop when the silence counter exceeds the threshold and otherwise add
one frame duration to it. -/
def recordAux (frameMs maxSilenceMs : Nat) :
    List Frame → List Frame → Nat → Bool → Nat → RecordTrace
  | [], audioFrames, _, _, n => recordFinish audioFrames n
  | f :: rest, audioFrames, silenceMs, started, n =>
    let audioFrames := audioFrames ++ [f]
    let n := n + 1
    let silenceMs := if f.speech then 0 else silenceMs
    let started := if f.speech then true else started
    if started = false ∧ 3000 < n * frameMs then
      ⟨.ok ⟨false, none, true⟩, n⟩
    else if started = true ∧ maxSilenceMs < silenceMs then
      recordFinish audioFrames n
    else
      recordAux frameMs maxSilenceMs rest audioFrames
        (if started then silenceMs + frameMs else silenceMs) started n

/-- `AudioService.record` on a frame source, with the frame duration and the
silence threshold in ms (source defaults: 30 ms frames, 1.0 s threshold). -/
def record (src : List Frame) (frameMs : Nat) (maxSilenceMs : Nat) :
    RecordTrace :=
  recordAux frameMs maxSilenceMs src [] 0 false 0

/-- A non-speech frame carrying a marker sample. -/
def quietFrame : Frame :=
  ⟨false, [7]⟩

/-- A speech frame. -/
def speechFrame : Frame :=
  ⟨true, [1]⟩

/-- A non-speech frame with a zero sample, for silence tails. -/
def silentFrame : Frame :=
  ⟨false, [0]⟩

/-- Frame source for the recorder stop-condition analysis: one non-speech
frame, one speech frame, then 35 non-speech frames. -/
def stopSrc : List Frame :=
  quietFrame :: speechFrame :: List.replicate 35 silentFrame

/-! ### Sentence segmenter (AudioService.collect_until_sentence_end,
parse_special_content, skip_price_numbers) and the text loop of
play_stream_audio

Text is modelled as `List Char`.  Each regular expression of the source is
embedded as a matching function with the semantics of that exact pattern
under the Python `re` engine: `re.search` finds the leftmost match,
`re.sub` replaces every non-overlapping match scanning left to right and
advancing one character when no match starts at the current position. -/

/-- The backtick character. -/
def btick : Char :=
  Char.ofNat 96

/-- The fixed spoken placeholder substituted for code content. -/
def codePH : List Char :=
  ("Den Quellcode findest du in der Textausgabe.").data

/-- The tail of the replacement for hyperlink markup; the full replacement is
the link label followed by this text. -/
def linkPH : List Char :=
  (" (Den Link findest du in der Textausgabe.)").data

/-- Matcher for the scheme part of the link pattern: the greedy prefix
matching the regular expression fragment for h-t-t-p, an optional s, then
colon-slash-slash; returns the rest of the text. -/
def urlSchemeMatch : List Char → Option (List Char)
  | 'h' :: 't' :: 't' :: 'p' :: 's' :: ':' :: '/' :: '/' :: r => some r
  | 'h' :: 't' :: 't' :: 'p' :: ':' :: '/' :: '/' :: r => some r
  | _ => none

/-- Scan for the closing parenthesis of the lazy URL-body fragment (one or
more non-whitespace characters, as few as possible, then a closing
parenthesis): fails on whitespace, succeeds at the first closing
parenthesis, returning the text after it. -/
def lazyBodyGo : List Char → Option (List Char)
  | [] => none
  | c :: rest =>
    if c == ')' then some rest
    else if c.isWhitespace then none
    else lazyBodyGo rest

/-- The lazy URL body: at least one non-whitespace character, then the first
closing parenthesis. -/
def lazyBody : List Char → Option (List Char)
  | [] => none
  | c :: rest => if c.isWhitespace then none else lazyBodyGo rest

/-- Attempt to match the full Markdown-link pattern of
`parse_special_content` at the head of the text: an opening bracket, a
non-empty greedy run of non-bracket label characters, a closing bracket, an
opening parenthesis, the URL scheme, the lazy URL body and its closing
parenthesis.  Returns the label and the text after the match. -/
def matchLinkAt : List Char → Option (List Char × List Char)
  | [] => none
  | c :: rest =>
    if c == '[' then
      let label := rest.takeWhile (fun x => x != ']')
      let rest1 := rest.dropWhile (fun x => x != ']')
      if label.isEmpty then none
      else
        match rest1 with
        | ']' :: '(' :: rest2 =>
          match urlSchemeMatch rest2 with
          | some rest3 =>
            match lazyBody rest3 with
            | some rest4 => some (label, rest4)
            | none => none
          | none => none
        | _ => none
    else none

/-- The link substitution of `parse_special_content`, scanning left to right
with fuel (one unit per scan position; each replacement consumes at least
one character, so fuel equal to the length of the text suffices). -/
def replaceLinksAux : Nat → List Char → List Char
  | 0, cs => cs
  | _ + 1, [] => []
  | fuel + 1, c :: rest =>
    match matchLinkAt (c :: rest) with
    | some (label, rest2) => label ++ linkPH ++ replaceLinksAux fuel rest2
    | none => c :: replaceLinksAux fuel rest

/-- `re.sub` of the Markdown-link pattern with the label-plus-placeholder
replacement. -/
def replaceLinks (cs : List Char) : List Char :=
  replaceLinksAux cs.length cs

/-- Whether the text starts with a triple-backtick fence. -/
def startsWithFence : List Char → Bool
  | a :: b :: c :: _ => a == btick && b == btick && c == btick
  | _ => false

/-- `re.search` of the triple-backtick pattern: the index of the leftmost
fence, if any (the match ends three characters later). -/
def findFence : List Char → Option Nat
  | [] => none
  | c :: rest =>
    if startsWithFence (c :: rest) then some 0
    else (findFence rest).map (fun i => i + 1)

/-- Attempt to match the inline-code pattern (two backticks, a non-empty
greedy run of non-backtick characters, two backticks) at the head of the
text, returning the length of the match. -/
def matchInlineLen : List Char → Option Nat
  | a :: b :: rest =>
    if a == btick && b == btick then
      let body := rest.takeWhile (fun x => x != btick)
      let rest1 := rest.dropWhile (fun x => x != btick)
      if body.isEmpty then none
      else
        match rest1 with
        | x :: y :: _ =>
          if x == btick && y == btick then some (2 + body.length + 2) else none
        | _ => none
    else none
  | _ => none

/-- The inline-code substitution of `parse_special_content`: every
inline-code match is replaced by the code placeholder. -/
def replaceInlineAux : Nat → List Char → List Char
  | 0, cs => cs
  | _ + 1, [] => []
  | fuel + 1, c :: rest =>
    match matchInlineLen (c :: rest) with
    | some len => codePH ++ replaceInlineAux fuel ((c :: rest).drop len)
    | none => c :: replaceInlineAux fuel rest

/-- `re.sub` of the inline-code pattern with the code placeholder. -/
def replaceInlineCode (cs : List Char) : List Char :=
  replaceInlineAux cs.length cs

/-- Python regex word characters (ASCII): letters, digits, underscore. -/
def isWordChar (c : Char) : Bool :=
  c.isAlphanum || c == '_'

/-- The trailing word-boundary assertion of the price pattern: end of text or
a non-word character. -/
def wordBoundaryAfter : List Char → Bool
  | [] => true
  | c :: _ => !(isWordChar c)

/-- Number of leading decimal digits of the text. -/
def digitRun : List Char → Nat
  | [] => 0
  | c :: rest => if c.isDigit then digitRun rest + 1 else 0

/-- Candidate consumption lengths of the starred group of the price pattern
(a dot or comma followed by exactly three digits, repeated), in decreasing
order as the greedy star backtracks: maximal repetitions first, down to
zero. -/
def starLens : List Char → List Nat
  | s :: d1 :: d2 :: d3 :: rest =>
    if (s == '.' || s == ',') && d1.isDigit && d2.isDigit && d3.isDigit then
      (starLens rest).map (fun l => l + 4) ++ [0]
    else [0]
  | _ => [0]

/-- The tail of the price pattern after the digit groups: a space, the
currency word USD or EUR, and the trailing word boundary; consumes four
characters. -/
def tailLen : List Char → Option Nat
  | sp :: a :: b :: c :: rest =>
    if sp == ' ' &&
        ((a == 'U' && b == 'S' && c == 'D') ||
          (a == 'E' && b == 'U' && c == 'R')) &&
        wordBoundaryAfter rest then
      some 4
    else none
  | _ => none

/-- Try the candidate star lengths in backtracking order against the tail of
the price pattern. -/
def tryStar (cs : List Char) : List Nat → Option Nat
  | [] => none
  | l :: ls =>
    match tailLen (cs.drop l) with
    | some t => some (l + t)
    | none => tryStar cs ls

/-- Backtracking over the leading digit count (one to three digits, greedy:
largest first).  The argument is the number of digits still allowed. -/
def tryDigits (cs : List Char) : Nat → Option Nat
  | 0 => none
  | k + 1 =>
    match tryStar (cs.drop (k + 1)) (starLens (cs.drop (k + 1))) with
    | some m => some (k + 1 + m)
    | none => tryDigits cs k

/-- Length of a match of the price pattern at the head of the text (not
including the leading word-boundary assertion, which the scanner checks). -/
def matchPriceLen (cs : List Char) : Option Nat :=
  tryDigits cs (min 3 (digitRun cs))

/-- The leading word-boundary assertion: start of text or a preceding
non-word character (the first matched character is a digit, a word
character). -/
def boundaryBefore : Option Char → Bool
  | none => true
  | some c => !(isWordChar c)

/-- The scan of `re.sub` for the price pattern.  The replacement is the
match itself (the identity lambda of `skip_price_numbers`), after which the
scan resumes past the match; `prev` is the character before the current
position, for the word-boundary assertion. -/
def skipPricesAux : Nat → Option Char → List Char → List Char
  | 0, _, cs => cs
  | _ + 1, _, [] => []
  | fuel + 1, prev, c :: rest =>
    match (if boundaryBefore prev then matchPriceLen (c :: rest) else none) with
    | some len =>
      (c :: rest).take len ++
        skipPricesAux fuel ((c :: rest).take len).getLast? ((c :: rest).drop len)
    | none => c :: skipPricesAux fuel (some c) rest

/-- `AudioService.skip_price_numbers`: substitute every price match by
itself. -/
def skip_price_numbers (cs : List Char) : List Char :=
  skipPricesAux cs.length none cs

/-- Whether a character is one of the sentence-terminal marks. -/
def isTerminalPunct (c : Char) : Bool :=
  c == '.' || c == '!' || c == '?'

/-- The lookahead of the sentence-end pattern: end of text or a whitespace
character next. -/
def followedBySpaceOrEnd : List Char → Bool
  | [] => true
  | c :: _ => c.isWhitespace

/-- `re.search` of the sentence-end pattern (a terminal mark followed by
whitespace or end of text): the end position of the leftmost match, one past
the terminal mark. -/
def findSentenceEnd : List Char → Option Nat
  | [] => none
  | c :: rest =>
    if isTerminalPunct c && followedBySpaceOrEnd rest then some 1
    else (findSentenceEnd rest).map (fun i => i + 1)

/-- Python `str.strip`: remove leading and trailing whitespace. -/
def stripChars (cs : List Char) : List Char :=
  ((cs.dropWhile Char.isWhitespace).reverse.dropWhile Char.isWhitespace).reverse

/-- `AudioService.parse_special_content`, in source order: substitute link
markup; handle the triple-backtick fences according to the carried
code-block flag, substituting the code placeholder; when not inside a code
block afterwards, substitute inline code; finally apply
`skip_price_numbers`.  Returns the transformed text and the updated flag. -/
def parse_special_content (text : List Char) (in_code_block : Bool) :
    List Char × Bool :=
  let text1 := replaceLinks text
  let fenceStep :=
    if in_code_block then
      match findFence text1 with
      | some i => (codePH ++ text1.drop (i + 3), false)
      | none => (codePH, true)
    else
      match findFence text1 with
      | some i =>
        match findFence (text1.drop (i + 3)) with
        | some j =>
          (text1.take i ++ codePH ++ (text1.drop (i + 3)).drop (j + 3), false)
        | none => (text1.take i ++ codePH, true)
      | none => (text1, in_code_block)
  let text3 := if fenceStep.2 then fenceStep.1 else replaceInlineCode fenceStep.1
  (skip_price_numbers text3, fenceStep.2)

/-- `AudioService.collect_until_sentence_end`, in source order: apply
`parse_special_content`; or the returned open-flag into the carried flag;
inside a code block, clear the flag only when the processed text still
contains a fence and emit no sentence; otherwise search for a sentence end
and either split (stripping both parts) or return the original buffer with
no sentence. -/
def collect_until_sentence_end (text_buffer : List Char)
    (in_code_block : Bool) : List Char × List Char × Bool :=
  let pr := parse_special_content text_buffer in_code_block
  let processed_text := pr.1
  let code_block_open := pr.2
  let icb := in_code_block || code_block_open
  if icb then
    let icb2 := if (findFence processed_text).isSome then false else icb
    ([], processed_text, icb2)
  else
    match findSentenceEnd processed_text with
    | some e =>
      (stripChars (processed_text.take e), stripChars (processed_text.drop e),
        icb)
    | none => ([], text_buffer, icb)

/-- The text loop of `AudioService.play_stream_audio`: accumulate each chunk
into the buffer, run `collect_until_sentence_end`, submit the sentence for
synthesis when one is detected (keeping the remainder as the new buffer),
and after the stream is exhausted submit any non-empty remaining buffer.
The result is the list of texts submitted to `process_speech`, in submission
order. -/
def playStreamAux :
    List (List Char) → List Char → Bool → List (List Char) → List (List Char)
  | [], buf, _, subs => if buf.isEmpty then subs else subs ++ [buf]
  | chunk :: rest, buf, icb, subs =>
    let buf2 := buf ++ chunk
    let r := collect_until_sentence_end buf2 icb
    if r.1.isEmpty then playStreamAux rest buf2 r.2.2 subs
    else playStreamAux rest r.2.1 r.2.2 (subs ++ [r.1])

/-- The texts submitted for synthesis by `play_stream_audio` for a given
chunk stream, starting with an empty buffer outside a code block. -/
def playStreamSentences (chunks : List (List Char)) : List (List Char) :=
  playStreamAux chunks [] false []

/-- A character that none of the substitutions or scans of the segmenter
react to: a letter or a plain space. -/
def plainChar (c : Char) : Bool :=
  c.isAlpha || c == ' '

/-- Buffer for the closing-fence analysis: text still inside a code block
whose closing fence arrives in this chunk, followed by further prose. -/
def fenceBuf : List Char :=
  ("x``` After.").data

/-- Buffer containing a price span and a final sentence-terminal mark. -/
def priceBuf : List Char :=
  ("Der Kurs liegt bei 66.842 USD heute.").data

/-! ## Helper lemmas -/

/-- The price substitution emits, in both branches of the scan, exactly the
characters it consumed, so it returns its input for every fuel, previous
character and text. -/
theorem skipPricesAux_eq_self :
    ∀ (fuel : Nat) (prev : Option Char) (cs : List Char),
      skipPricesAux fuel prev cs = cs := by
  intro fuel
  induction fuel with
  | zero => intro prev cs; rfl
  | succ fuel ih =>
    intro prev cs
    cases cs with
    | nil => rfl
    | cons c rest =>
      simp only [skipPricesAux]
      cases h : (if boundaryBefore prev then matchPriceLen (c :: rest) else none) with
      | none => simp [h, ih]
      | some len => simp [h, ih, List.take_append_drop]

/-- The sentence-end scan returns the end position of a match of the
terminal-mark pattern: the position is inside the text, the character before
it is a terminal mark, and the character at it (if any) is whitespace. -/
theorem findSentenceEnd_spec :
    ∀ (cs : List Char) (e : Nat), findSentenceEnd cs = some e →
      1 ≤ e ∧ e ≤ cs.length ∧
        isTerminalPunct (cs.getD (e - 1) ' ') = true ∧
        followedBySpaceOrEnd (cs.drop e) = true := by
  intro cs
  induction cs with
  | nil => intro e h; simp [findSentenceEnd] at h
  | cons c rest ih =>
    intro e h
    simp only [findSentenceEnd] at h
    by_cases hc : (isTerminalPunct c && followedBySpaceOrEnd rest) = true
    · rw [if_pos hc] at h
      obtain ⟨h1, h2⟩ := Bool.and_eq_true_iff.mp hc
      obtain rfl : (1 : Nat) = e := Option.some.inj h
      exact ⟨le_refl 1, by simp, by simpa using h1, by simpa using h2⟩
    · rw [if_neg hc] at h
      cases hrest : findSentenceEnd rest with
      | none => rw [hrest] at h; simp at h
      | some i =>
        rw [hrest] at h
        simp only [Option.map_some'] at h
        obtain rfl : i + 1 = e := Option.some.inj h
        obtain ⟨hi1, hi2, hi3, hi4⟩ := ih i hrest
        obtain ⟨k, rfl⟩ : ∃ k, i = k + 1 := ⟨i - 1, by omega⟩
        refine ⟨by omega, by simp; omega, ?_, ?_⟩
        · simpa [List.getD_cons_succ] using hi3
        · simpa [List.drop_succ_cons] using hi4

/-- A plain character is not an opening bracket, so the link matcher fails
on it. -/
theorem matchLinkAt_plain (c : Char) (rest : List Char)
    (hc : plainChar c = true) : matchLinkAt (c :: rest) = none := by
  have hne : (c == '[') = false := by
    cases hb : c == '[' with
    | false => rfl
    | true =>
      obtain rfl : c = '[' := beq_iff_eq.mp hb
      exact absurd hc (by decide)
  simp [matchLinkAt, hne]

/-- The link substitution leaves text without opening brackets unchanged. -/
theorem replaceLinksAux_plain :
    ∀ (fuel : Nat) (cs : List Char), (∀ c ∈ cs, plainChar c = true) →
      replaceLinksAux fuel cs = cs := by
  intro fuel
  induction fuel with
  | zero => intro cs _; rfl
  | succ fuel ih =>
    intro cs hcs
    cases cs with
    | nil => rfl
    | cons c rest =>
      simp only [replaceLinksAux, matchLinkAt_plain c rest (hcs c (by simp))]
      exact congrArg (c :: ·) (ih rest fun x hx => hcs x (by simp [hx]))

/-- A plain character is not a backtick. -/
theorem plainChar_ne_btick (c : Char) (hc : plainChar c = true) :
    (c == btick) = false := by
  cases hb : c == btick with
  | false => rfl
  | true =>
    obtain rfl : c = btick := beq_iff_eq.mp hb
    exact absurd hc (by decide)

/-- Text whose head is not a backtick does not start with a fence. -/
theorem startsWithFence_plain (c : Char) (rest : List Char)
    (hc : (c == btick) = false) : startsWithFence (c :: rest) = false := by
  match rest with
  | [] => rfl
  | [b] => rfl
  | b :: d :: tail => simp [startsWithFence, hc]

/-- The fence search fails on text of plain characters. -/
theorem findFence_plain :
    ∀ (cs : List Char), (∀ c ∈ cs, plainChar c = true) →
      findFence cs = none := by
  intro cs
  induction cs with
  | nil => intro _; rfl
  | cons c rest ih =>
    intro hcs
    have hc := plainChar_ne_btick c (hcs c (by simp))
    simp [findFence, startsWithFence_plain c rest hc,
      ih fun x hx => hcs x (by simp [hx])]

/-- The inline-code matcher fails on text whose head is not a backtick. -/
theorem matchInlineLen_plain (c : Char) (rest : List Char)
    (hc : (c == btick) = false) : matchInlineLen (c :: rest) = none := by
  match rest with
  | [] => rfl
  | b :: tail => simp [matchInlineLen, hc]

/-- The inline-code substitution leaves text of plain characters
unchanged. -/
theorem replaceInlineAux_plain :
    ∀ (fuel : Nat) (cs : List Char), (∀ c ∈ cs, plainChar c = true) →
      replaceInlineAux fuel cs = cs := by
  intro fuel
  induction fuel with
  | zero => intro cs _; rfl
  | succ fuel ih =>
    intro cs hcs
    cases cs with
    | nil => rfl
    | cons c rest =>
      simp only [replaceInlineAux,
        matchInlineLen_plain c rest (plainChar_ne_btick c (hcs c (by simp)))]
      exact congrArg (c :: ·) (ih rest fun x hx => hcs x (by simp [hx]))

/-- A plain character is not a terminal mark. -/
theorem isTerminalPunct_plain (c : Char) (hc : plainChar c = true) :
    isTerminalPunct c = false := by
  cases ht : isTerminalPunct c with
  | false => rfl
  | true =>
    exfalso
    simp only [isTerminalPunct, Bool.or_eq_true, beq_iff_eq] at ht
    rcases ht with (rfl | rfl) | rfl
    · exact absurd hc (by decide)
    · exact absurd hc (by decide)
    · exact absurd hc (by decide)

/-- The sentence-end scan fails on text of plain characters. -/
theorem findSentenceEnd_plain :
    ∀ (cs : List Char), (∀ c ∈ cs, plainChar c = true) →
      findSentenceEnd cs = none := by
  intro cs
  induction cs with
  | nil => intro _; rfl
  | cons c rest ih =>
    intro hcs
    simp [findSentenceEnd, isTerminalPunct_plain c (hcs c (by simp)),
      ih fun x hx => hcs x (by simp [hx])]

/-- On text of plain characters outside a code block, every substitution of
`parse_special_content` is the identity and the flag stays cleared. -/
theorem parse_special_content_plain (cs : List Char)
    (hcs : ∀ c ∈ cs, plainChar c = true) :
    parse_special_content cs false = (cs, false) := by
  simp only [parse_special_content, replaceLinks, replaceInlineCode,
    replaceLinksAux_plain cs.length cs hcs, findFence_plain cs hcs]
  simp [replaceInlineAux_plain cs.length cs hcs, skip_price_numbers,
    skipPricesAux_eq_self]

/-- On text of plain characters outside a code block,
`collect_until_sentence_end` finds no sentence end and returns the whole
buffer with the flag cleared. -/
theorem collect_plain (cs : List Char)
    (hcs : ∀ c ∈ cs, plainChar c = true) :
    collect_until_sentence_end cs false = ([], cs, false) := by
  simp only [collect_until_sentence_end, parse_special_content_plain cs hcs]
  simp [findSentenceEnd_plain cs hcs]

/-- The text loop of `play_stream_audio` on plain chunks: no sentence is
ever detected, the buffer accumulates the whole stream, and the final flush
submits it as one unit when non-empty. -/
theorem playStreamAux_plain :
    ∀ (chunks : List (List Char)) (buf : List Char) (subs : List (List Char)),
      (∀ ch ∈ chunks, ∀ c ∈ ch, plainChar c = true) →
      (∀ c ∈ buf, plainChar c = true) →
      playStreamAux chunks buf false subs =
        if (buf ++ chunks.flatten).isEmpty then subs
        else subs ++ [buf ++ chunks.flatten] := by
  intro chunks
  induction chunks with
  | nil => intro buf subs _ _; simp [playStreamAux]
  | cons ch rest ih =>
    intro buf subs hch hbuf
    have hbuf2 : ∀ c ∈ buf ++ ch, plainChar c = true := by
      intro c hc
      rcases List.mem_append.mp hc with h | h
      · exact hbuf c h
      · exact hch ch (by simp) c h
    simp only [playStreamAux, collect_plain (buf ++ ch) hbuf2,
      List.isEmpty_nil, if_true]
    rw [ih (buf ++ ch) subs (fun x hx => hch x (by simp [hx])) hbuf2]
    simp [List.append_assoc]

/-- Claim C8: when the fragment stream is exhausted with a non-empty
accumulated buffer in which no sentence-terminal mark was found, exactly one
final sentence unit equal to that remainder is submitted for synthesis.
Stated for streams of plain text (no terminal marks, markup or digits), for
which the buffer is exactly the concatenation of the stream. -/
theorem C8_end_of_stream_flush (chunks : List (List Char))
    (hplain : ∀ ch ∈ chunks, ∀ c ∈ ch, plainChar c = true)
    (hne : chunks.flatten ≠ []) :
    playStreamSentences chunks = [chunks.flatten] := by
  unfold playStreamSentences
  rw [playStreamAux_plain chunks [] [] hplain (by simp)]
  simp only [List.nil_append]
  rw [if_neg (by simpa [List.isEmpty_eq_true] using hne)]

/-- Witness for C8 on the stream of the two chunks of the text
Hello-space-there. -/
theorem C8_witness :
    playStreamSentences [("Hello ").data, ("there").data] =
      [([("Hello ").data, ("there").data] : List (List Char)).flatten] :=
  C8_end_of_stream_flush [("Hello ").data, ("there").data] (by decide)
    (by decide)

/-- Claim C9: the terminal-mark scan of the segmenter only ever matches a
terminal mark followed by whitespace or end of buffer, so a sentence is
never split at a mark immediately followed by a non-whitespace character
(in particular not inside a numeric price span); and on a buffer containing
the price span the emitted sentence is the whole buffer with the span
intact. -/
theorem C9_price_span_not_split :
    (∀ (cs : List Char) (e : Nat), findSentenceEnd cs = some e →
        isTerminalPunct (cs.getD (e - 1) ' ') = true ∧
          followedBySpaceOrEnd (cs.drop e) = true) ∧
      collect_until_sentence_end priceBuf false = (priceBuf, [], false) := by
  constructor
  · intro cs e h
    obtain ⟨_, _, h3, h4⟩ := findSentenceEnd_spec cs e h
    exact ⟨h3, h4⟩
  · decide

/-- Witness for C9 at a concrete scan: the match in the text
J-a-dot-space-X ends at position 3, on the dot followed by a space. -/
theorem C9_witness :
    isTerminalPunct ((("Ja. X").data).getD (3 - 1) ' ') = true ∧
      followedBySpaceOrEnd ((("Ja. X").data).drop 3) = true :=
  C9_price_span_not_split.1 (("Ja. X").data) 3 (by decide)

/-- Claim C10: `skip_price_numbers` substitutes every match of the price
pattern by the match itself, so it returns every input string unchanged: the
price-preservation step performs no transformation at all. -/
theorem C10_skip_price_numbers_identity (cs : List Char) :
    skip_price_numbers cs = cs :=
  skipPricesAux_eq_self cs.length none cs

/-- Claim C1, counterexample: with two sentence units and the synthesis
tasks acquiring `transcription_lock` in the order 2, 1 (sentence 1 slowest),
the playback stage writes the segments in the order 2, 1, not in the original
sentence order 1, 2: the FIFO `audio_queue` carries no sequence numbers and
no reordering happens before playback. -/
theorem C1_counterexample :
    playAudio (synthesisQueue [2, 1] segOf) = [[2], [1]] ∧
      playAudio (synthesisQueue [2, 1] segOf) ≠ [[(1 : Int)], [(2 : Int)]] := by
  decide

/-- Claim C1, amended: the playback stage writes the audio segments in the
order in which the synthesis tasks acquired `transcription_lock` (the FIFO
enqueue order), whatever that order is; it equals the sentence order only
when the lock happens to be acquired in submission order. -/
theorem C1_amended_playback_is_lock_order
    (lockOrder : List Nat) (tts : Nat → Option (List Int))
    (h : ∀ i ∈ lockOrder, (processSpeechEnqueue (tts i)).length ≠ 0) :
    playAudio (synthesisQueue lockOrder tts) =
      lockOrder.map (fun i => processSpeechEnqueue (tts i)) := by
  induction lockOrder with
  | nil => rfl
  | cons a rest ih =>
    have ha : (processSpeechEnqueue (tts a)).length ≠ 0 := h a (by simp)
    simp only [synthesisQueue, List.map_cons, List.cons_append, playAudio]
    rw [if_neg ha]
    exact congrArg (_ :: ·) (ih fun i hi => h i (List.mem_cons_of_mem a hi))

/-- Witness for the amended C1 theorem at lock order 2, 1. -/
theorem C1_amended_witness :
    playAudio (synthesisQueue [2, 1] segOf) =
      ([2, 1] : List Nat).map (fun i => processSpeechEnqueue (segOf i)) :=
  C1_amended_playback_is_lock_order [2, 1] segOf (by decide)

/-- Claim C2, counterexample: when the TTS call for sentence 2 fails,
`process_speech` enqueues the empty array, which `play_audio` interprets as
the end signal: playback stops after sentence 1 and the subsequently
synthesized sentence 3 is never played, contrary to the claim that the
playback stage still plays every subsequently synthesized sentence. -/
theorem C2_counterexample :
    playAudio (synthesisQueue [1, 2, 3] ttsFail2) = [[(1 : Int)]] ∧
      [(3 : Int)] ∉ playAudio (synthesisQueue [1, 2, 3] ttsFail2) := by
  decide

/-- Claim C2, amended: a synthesis failure enqueues the empty end-signal
buffer; playback plays exactly the segments enqueued before that sentinel
and terminates there, so segments enqueued after the failed sentence are
never written to the output device. -/
theorem C2_amended_playback_stops_at_failure
    (pre post : List (List Int)) (h : ∀ a ∈ pre, a ≠ []) :
    playAudio (pre ++ [] :: post) = pre := by
  induction pre with
  | nil => rfl
  | cons a rest ih =>
    have ha : a ≠ [] := h a (by simp)
    simp only [List.cons_append, playAudio]
    rw [if_neg (fun hl => ha (List.length_eq_zero.mp hl))]
    exact congrArg (a :: ·) (ih fun b hb => h b (List.mem_cons_of_mem a hb))

/-- Witness for the amended C2 theorem: one successful segment before the
failure sentinel, one after. -/
theorem C2_amended_witness :
    playAudio ([[(1 : Int)]] ++ [] :: [[(3 : Int)], []]) = [[(1 : Int)]] :=
  C2_amended_playback_stops_at_failure [[(1 : Int)]] [[(3 : Int)], []]
    (by decide)

/-- Claim C7, counterexample: when the device yields zero frames, `record`
does not return any `AudioRecordResult` value at all (there is no
`DeviceError` variant); it raises the `AudioRecordingFailed` exception. -/
theorem C7_counterexample :
    (record [] 30 1000).result.isOk = false := by
  decide

/-- Claim C7, amended: if the device yields zero frames before any terminal
transition, `record` raises `AudioRecordingFailed`; `AudioRecordResult`
carries only the `success`, `data` and `silence_timeout` fields, so the
device fault is signalled as an exception, not as a third result variant. -/
theorem C7_amended_zero_frames_raises (frameMs maxSilenceMs : Nat) :
    record [] frameMs maxSilenceMs =
      ⟨RecordReturn.raised RecordError.audioRecordingFailed, 0⟩ :=
  rfl

/-- Claim C6, code evaluated at the failing input: called with the code-block
flag set on a buffer that contains the closing fence, the segmenter returns
the flag still `true` (the source ors the stale incoming flag over the
cleared flag of `parse_special_content` and then searches for a fence in the
text from which the fence was already removed); the subsequent call then
replaces the whole remainder, including the prose after the fence, by the
code placeholder and emits no sentence, so processing never resumes. -/
theorem C6_code_eval :
    collect_until_sentence_end fenceBuf true =
        ([], codePH ++ (" After.").data, true) ∧
      collect_until_sentence_end (codePH ++ (" After.").data) true =
        ([], codePH, true) := by
  decide


/-- Appending the next buffered chunk to the replay prefix extends the
prefix by one: taking one element of the drop of a take. -/
theorem take_snoc_step {α : Type} (src : List α) (i t : Nat) (hit : i < t) :
    src.take i ++ ((src.take t).drop i).take 1 = src.take (i + 1) := by
  rw [List.drop_take, List.take_take]
  have h1 : 1 ⊓ (t - i) = 1 := by
    rw [min_eq_left]
    omega
  rw [h1, ← List.take_add]

/-- Safety of one tee consumer: whenever the `get` loop terminates —
whatever its pacing schedule, starting iteration and fuel — the chunks it
yielded are exactly the full source in production order (the loop condition
fails only once the finished flag is set and the index has passed every
buffered chunk). -/
theorem consumerRun_sound {α : Type} (src : List α) (f : Nat → Nat) :
    ∀ (fuel n i : Nat) (acc out : List α), acc = src.take i →
      i ≤ src.length → consumerRun src f fuel n i acc = some out →
      out = src := by
  intro fuel
  induction fuel with
  | zero => intro n i acc out _ _ h; simp [consumerRun] at h
  | succ fuel ih =>
    intro n i acc out hacc hi h
    simp only [consumerRun] at h
    split at h
    · rename_i hcond
      split at h
      · rename_i hlt
        have hmin : i < f n ⊓ src.length := by
          simpa [prodState, List.length_take] using hlt
        obtain ⟨hft, hlen⟩ := Nat.lt_min.mp hmin
        refine ih (n + 1) (i + 1) _ out ?_ (by omega) h
        rw [hacc]
        show src.take i ++ ((src.take (f n)).drop i).take 1 = src.take (i + 1)
        exact take_snoc_step src i (f n) hft
      · exact ih (n + 1) i acc out hacc hi h
    · rename_i hcond
      push_neg at hcond
      obtain ⟨hfin, hge⟩ := hcond
      have hfl : src.length < f n := by
        have hb : (prodState src (f n)).finished = true := by
          cases hb2 : (prodState src (f n)).finished with
          | true => rfl
          | false => exact absurd hb2 hfin
        simp only [prodState] at hb
        exact of_decide_eq_true hb
      have hcl : (prodState src (f n)).chunks.length = src.length := by
        simp [prodState, List.take_of_length_le (Nat.le_of_lt hfl)]
      rw [hcl] at hge
      have hieq : i = src.length := le_antisymm hi hge
      have hout : out = acc := (Option.some.inj h).symm
      rw [hout, hacc, hieq, List.take_length]

/-- Once the producer has finished from the consumer viewpoint, the
consumer drains the rest of the buffer one chunk per iteration and
terminates with the full source. -/
theorem consumerRun_after_finish {α : Type} (src : List α) (f : Nat → Nat)
    (hf : Monotone f) :
    ∀ (fuel n i : Nat) (acc : List α), src.length < f n → i ≤ src.length →
      acc = src.take i → src.length - i < fuel →
      consumerRun src f fuel n i acc = some src := by
  intro fuel
  induction fuel with
  | zero => intro n i acc _ _ _ h4; omega
  | succ fuel ih =>
    intro n i acc h1 h2 h3 h4
    simp only [consumerRun]
    have hcl : (prodState src (f n)).chunks = src := by
      simp [prodState, List.take_of_length_le (Nat.le_of_lt h1)]
    have hfin : (prodState src (f n)).finished = true := by
      simp [prodState, h1]
    by_cases hlt : i < src.length
    · rw [if_pos (Or.inr (by rw [hcl]; exact hlt))]
      rw [if_pos (by rw [hcl]; exact hlt)]
      rw [hcl]
      refine ih (n + 1) (i + 1) _
        (lt_of_lt_of_le h1 (hf (Nat.le_succ n))) (by omega) ?_ (by omega)
      rw [h3, ← List.take_add]
    · rw [if_neg ?_]
      · have hieq : i = src.length := by omega
        rw [h3, hieq, List.take_length]
      · intro hor
        rcases hor with hb | hb
        · rw [hfin] at hb
          exact Bool.noConfusion hb
        · rw [hcl] at hb
          exact hlt hb

/-- Liveness of one tee consumer: under a monotone schedule whose producer
view eventually passes the end of the source, enough fuel makes the
consumer terminate with exactly the full source. -/
theorem consumerRun_terminates {α : Type} (src : List α) (f : Nat → Nat)
    (hf : Monotone f) (n₀ : Nat) (h₀ : src.length < f n₀) :
    ∀ (fuel n i : Nat) (acc : List α), acc = src.take i → i ≤ src.length →
      n₀ - n + (src.length - i) < fuel →
      consumerRun src f fuel n i acc = some src := by
  intro fuel
  induction fuel with
  | zero => intro n i acc _ _ h; omega
  | succ fuel ih =>
    intro n i acc hacc hi hfu
    by_cases hn : src.length < f n
    · exact consumerRun_after_finish src f hf (fuel + 1) n i acc hn hi hacc
        (by omega)
    · have hnlt : n < n₀ := by
        by_contra hc
        push_neg at hc
        exact hn (lt_of_lt_of_le h₀ (hf hc))
      simp only [consumerRun]
      have hfin : (prodState src (f n)).finished = false := by
        simp [prodState, hn]
      rw [if_pos (Or.inl hfin)]
      by_cases hlt : i < (prodState src (f n)).chunks.length
      · rw [if_pos hlt]
        have hmin : i < f n ⊓ src.length := by
          simpa [prodState, List.length_take] using hlt
        obtain ⟨hft, hlen⟩ := Nat.lt_min.mp hmin
        refine ih (n + 1) (i + 1) _ ?_ (by omega) (by omega)
        rw [hacc]
        show src.take i ++ ((src.take (f n)).drop i).take 1 = src.take (i + 1)
        exact take_snoc_step src i (f n) hft
      · rw [if_neg hlt]
        exact ih (n + 1) i acc hacc hi (by omega)

/-- Claim C3: every consumer of the tee observes the identical fragment
sequence in the identical order as production.  The first two conjuncts run
two independently paced consumers (schedules `f` and `g`) to completion:
both yield exactly the source.  The third conjunct is the safety direction:
any consumer, under any schedule and any fuel, terminates only once it has
yielded all fragments with the finished flag set, so its output is exactly
the source. -/
theorem C3_tee_fanout (src : List Nat) (f g : Nat → Nat)
    (nf ng fuel : Nat) (hf : Monotone f) (hg : Monotone g)
    (hnf : src.length < f nf) (hng : src.length < g ng)
    (hfuf : nf + src.length < fuel) (hfug : ng + src.length < fuel) :
    consumerRun src f fuel 0 0 [] = some src ∧
      consumerRun src g fuel 0 0 [] = some src ∧
      ∀ (sched : Nat → Nat) (fuel2 n : Nat) (out : List Nat),
        consumerRun src sched fuel2 n 0 [] = some out → out = src := by
  refine ⟨?_, ?_, ?_⟩
  · exact consumerRun_terminates src f hf nf hnf fuel 0 0 [] (by simp)
      (by simp) (by omega)
  · exact consumerRun_terminates src g hg ng hng fuel 0 0 [] (by simp)
      (by simp) (by omega)
  · intro sched fuel2 n out h
    exact consumerRun_sound src sched fuel2 n 0 [] out (by simp) (by simp) h

/-- Witness for C3: an eager and a delayed consumer over a two-fragment
source both observe the source in order. -/
theorem C3_witness :
    consumerRun [10, 20] eagerSched 6 0 0 [] = some [10, 20] ∧
      consumerRun [10, 20] delaySched 6 0 0 [] = some [10, 20] :=
  ⟨(C3_tee_fanout [10, 20] eagerSched delaySched 3 2 6
      (fun _ _ hab => hab) (fun _ _ hab => Nat.mul_le_mul_left 2 hab)
      (by decide) (by decide) (by decide) (by decide)).1,
    (C3_tee_fanout [10, 20] eagerSched delaySched 3 2 6
      (fun _ _ hab => hab) (fun _ _ hab => Nat.mul_le_mul_left 2 hab)
      (by decide) (by decide) (by decide) (by decide)).2.1⟩

/-- The awaiting-speech loop on a source that never classifies as speech:
the recorder reads exactly one frame past the point where the elapsed time
exceeds the 3000 ms onset window and returns the timeout result with
`success = false` and `silence_timeout = true`. -/
theorem recordAux_nospeech (frameMs maxSilenceMs : Nat) (hfd : 0 < frameMs) :
    ∀ (src acc : List Frame) (n : Nat),
      (∀ fr ∈ src, fr.speech = false) →
      3000 / frameMs + 1 ≤ n + src.length → n * frameMs ≤ 3000 →
      recordAux frameMs maxSilenceMs src acc 0 false n =
        ⟨.ok ⟨false, none, true⟩, 3000 / frameMs + 1⟩ := by
  intro src
  induction src with
  | nil =>
    intro acc n _ hlen hn
    exfalso
    have h1 : n ≤ 3000 / frameMs := (Nat.le_div_iff_mul_le hfd).mpr hn
    simp only [List.length_nil, Nat.add_zero] at hlen
    omega
  | cons fr rest ih =>
    intro acc n hs hlen hn
    have hfr : fr.speech = false := hs fr (by simp)
    by_cases hto : 3000 < (n + 1) * frameMs
    · have h1 : n ≤ 3000 / frameMs := (Nat.le_div_iff_mul_le hfd).mpr hn
      have h2 : 3000 / frameMs < n + 1 := (Nat.div_lt_iff_lt_mul hfd).mpr hto
      have hn1 : n + 1 = 3000 / frameMs + 1 := by omega
      rw [← hn1]
      simp [recordAux, hfr, hto]
    · have hlt : (n + 1) * frameMs ≤ 3000 := by omega
      have hlen2 : 3000 / frameMs + 1 ≤ n + 1 + rest.length := by
        simp only [List.length_cons] at hlen
        omega
      simp [recordAux, hfr, hto]
      exact ih (acc ++ [fr]) (n + 1) (fun x hx => hs x (by simp [hx])) hlen2
        hlt

/-- Claim C4: on a frame source none of whose frames classifies as speech,
`record` returns the timeout outcome (`success = false`,
`silence_timeout = true`) after reading exactly one frame more than the
3000 ms onset window holds, and reads no frame after that transition
(`framesRead` is that count); the elapsed wall-clock time at the transition
is within one frame duration above the onset window. -/
theorem C4_recorder_timeout (frameMs maxSilenceMs : Nat) (src : List Frame)
    (hfd : 0 < frameMs) (hs : ∀ fr ∈ src, fr.speech = false)
    (hlen : 3000 / frameMs + 1 ≤ src.length) :
    record src frameMs maxSilenceMs =
        ⟨.ok ⟨false, none, true⟩, 3000 / frameMs + 1⟩ ∧
      3000 < (3000 / frameMs + 1) * frameMs ∧
      (3000 / frameMs + 1) * frameMs ≤ 3000 + frameMs := by
  refine ⟨?_, ?_, ?_⟩
  · exact recordAux_nospeech frameMs maxSilenceMs hfd src [] 0 hs
      (by omega) (by simp)
  · exact (Nat.div_lt_iff_lt_mul hfd).mp (Nat.lt_succ_self (3000 / frameMs))
  · calc (3000 / frameMs + 1) * frameMs
        = 3000 / frameMs * frameMs + frameMs := by rw [Nat.succ_mul]
      _ ≤ 3000 + frameMs :=
        Nat.add_le_add_right (Nat.div_mul_le_self 3000 frameMs) frameMs

/-- Witness for C4 with 30 ms frames: the recorder reads 101 frames
(3030 ms) and times out. -/
theorem C4_witness :
    record (List.replicate 101 silentFrame) 30 1000 =
        ⟨.ok ⟨false, none, true⟩, 3000 / 30 + 1⟩ ∧
      3000 < (3000 / 30 + 1) * 30 ∧ (3000 / 30 + 1) * 30 ≤ 3000 + 30 :=
  C4_recorder_timeout 30 1000 (List.replicate 101 silentFrame) (by decide)
    (by decide) (by decide)

/-- While awaiting speech within the onset window, the recorder appends the
leading non-speech frames to `audio_frames` and continues on the rest of the
source: the pre-trigger frames are buffered too, because the source appends
every frame before the speech check. -/
theorem recordAux_awaiting_append (frameMs maxSilenceMs : Nat) :
    ∀ (pre rest acc : List Frame) (n : Nat),
      (∀ fr ∈ pre, fr.speech = false) →
      (n + pre.length) * frameMs ≤ 3000 →
      recordAux frameMs maxSilenceMs (pre ++ rest) acc 0 false n =
        recordAux frameMs maxSilenceMs rest (acc ++ pre) 0 false
          (n + pre.length) := by
  intro pre
  induction pre with
  | nil => intro rest acc n _ _; simp
  | cons fr pre ih =>
    intro rest acc n hs hb
    have hfr : fr.speech = false := hs fr (by simp)
    have hb2 : (n + 1 + pre.length) * frameMs ≤ 3000 := by
      have hcomm : n + 1 + pre.length = n + (pre.length + 1) := by omega
      rw [hcomm]
      simpa using hb
    have hto : ¬ 3000 < (n + 1) * frameMs := by
      have hle : (n + 1) * frameMs ≤ (n + 1 + pre.length) * frameMs :=
        Nat.mul_le_mul_right _ (by omega)
      omega
    simp only [List.cons_append]
    simp [recordAux, hfr, hto]
    rw [ih rest (acc ++ [fr]) (n + 1) (fun x hx => hs x (by simp [hx])) hb2]
    have hargs : (acc ++ [fr]) ++ pre = acc ++ fr :: pre := by simp
    have hn2 : n + 1 + pre.length = n + (pre.length + 1) := by omega
    rw [hargs, hn2]

/-- The recording-phase countdown with 30 ms frames and a 1000 ms silence
threshold: entering the loop with the silence counter at `s ≤ 1000` on an
all-silent source, the recorder buffers exactly `(1000 - s) / 30 + 2` more
frames (the counter is checked before being incremented, and the frame at
which the check exceeds the threshold is appended before the break) and
returns success with every buffered frame concatenated. -/
theorem recordAux_silence_countdown :
    ∀ (tail acc : List Frame) (s n : Nat),
      (∀ fr ∈ tail, fr.speech = false) → s ≤ 1000 →
      (1000 - s) / 30 + 2 ≤ tail.length →
      recordAux 30 1000 tail acc s true n =
        ⟨.ok ⟨true,
            some (audioOf (acc ++ tail.take ((1000 - s) / 30 + 2))), false⟩,
          n + ((1000 - s) / 30 + 2)⟩ := by
  intro tail
  induction tail with
  | nil =>
    intro acc s n _ _ hlen
    simp only [List.length_nil] at hlen
    omega
  | cons f rest ih =>
    intro acc s n hs hsle hlen
    have hf : f.speech = false := hs f (by simp)
    have hnb : ¬ 1000 < s := by omega
    by_cases h30 : s + 30 ≤ 1000
    · have hlen2 : (1000 - (s + 30)) / 30 + 2 ≤ rest.length := by
        simp only [List.length_cons] at hlen
        omega
      have hK : (1000 - s) / 30 + 2 = ((1000 - (s + 30)) / 30 + 2) + 1 := by
        omega
      rw [hK, List.take_succ_cons]
      simp [recordAux, hf, hnb]
      rw [ih (acc ++ [f]) (s + 30) (n + 1)
        (fun x hx => hs x (by simp [hx])) (by omega) hlen2]
      have hargs : (acc ++ [f]) ++ rest.take ((1000 - (s + 30)) / 30 + 2) =
          acc ++ f :: rest.take ((1000 - (s + 30)) / 30 + 2) := by
        simp
      have hn2 : n + 1 + ((1000 - (s + 30)) / 30 + 2) =
          n + ((1000 - (s + 30)) / 30 + 2 + 1) := by
        omega
      rw [hargs, hn2]
      have hsub : 1000 - (s + 30) = 970 - s := by omega
      rw [hsub]
    · have hK0 : (1000 - s) / 30 = 0 := by omega
      cases rest with
      | nil =>
        simp only [List.length_cons, List.length_nil] at hlen
        omega
      | cons g rest2 =>
        have hg : g.speech = false := hs g (by simp)
        have hbrk : 1000 < s + 30 := by omega
        have ht2 : List.take ((1000 - s) / 30 + 2) (f :: g :: rest2) =
            [f, g] := by
          rw [hK0]
          rfl
        have hn2 : n + ((1000 - s) / 30 + 2) = n + 1 + 1 := by omega
        rw [ht2, hn2]
        simp [recordAux, hf, hnb, hg, hbrk, recordFinish]

/-- Claim C5, counterexample: on a source with one non-speech frame before
the speech trigger, the returned audio includes the pre-trigger frame
(sample 7), because `record` appends every frame read since stream start,
so the audio is not exactly the frames from the triggering frame onward. -/
theorem C5_counterexample :
    (record stopSrc 30 1000).result =
        .ok ⟨true, some ((7 : Int) :: 1 :: List.replicate 34 0), false⟩ ∧
      ((7 : Int) :: 1 :: List.replicate 34 0) ≠
        ((1 : Int) :: List.replicate 34 0) := by
  decide

/-- Claim C5, amended: with 30 ms frames and a 1000 ms silence threshold,
the returned audio is exactly every frame read from stream start — the
pre-trigger frames included — through the frame at which the silence-counter
check exceeds the threshold (the 34th silent frame after the trigger, which
is appended before the break), in capture order, and zero frames beyond that
boundary; the recorder reads exactly that many frames. -/
theorem C5_amended_recording_window (pre tail : List Frame) (trig : Frame)
    (hpre : ∀ fr ∈ pre, fr.speech = false) (htrig : trig.speech = true)
    (htail : ∀ fr ∈ tail, fr.speech = false)
    (honset : pre.length * 30 ≤ 3000) (htl : 34 ≤ tail.length) :
    record (pre ++ trig :: tail) 30 1000 =
      ⟨.ok ⟨true, some (audioOf (pre ++ trig :: tail.take 34)), false⟩,
        pre.length + 35⟩ := by
  unfold record
  rw [recordAux_awaiting_append 30 1000 pre (trig :: tail) [] 0 hpre
    (by simpa using honset)]
  simp only [List.nil_append, Nat.zero_add]
  simp [recordAux, htrig]
  rw [recordAux_silence_countdown tail (pre ++ [trig]) 30 (pre.length + 1)
    htail (by omega) (by omega)]
  have h34 : (1000 - 30) / 30 + 2 = 34 := by norm_num
  rw [h34]
  have hl : (pre ++ [trig]) ++ tail.take 34 = pre ++ trig :: tail.take 34 := by
    simp
  have hn : pre.length + 1 + 34 = pre.length + 35 := by omega
  rw [hl, hn]

/-- Witness for the amended C5 theorem on the concrete source of one quiet
frame, one speech frame and 35 silent frames. -/
theorem C5_amended_witness :
    record ([quietFrame] ++ speechFrame :: List.replicate 35 silentFrame) 30
        1000 =
      ⟨.ok ⟨true, some (audioOf ([quietFrame] ++ speechFrame ::
            (List.replicate 35 silentFrame).take 34)), false⟩,
        ([quietFrame] : List Frame).length + 35⟩ :=
  C5_amended_recording_window [quietFrame] (List.replicate 35 silentFrame)
    speechFrame (by decide) (by decide) (by decide) (by decide) (by decide)

/-- Witness for the amended C7 theorem at the default parameters. -/
theorem C7_amended_witness :
    record [] 30 1000 =
      ⟨RecordReturn.raised RecordError.audioRecordingFailed, 0⟩ :=
  C7_amended_zero_frames_raises 30 1000

/-- Witness for C10 at the concrete price buffer. -/
theorem C10_witness : skip_price_numbers priceBuf = priceBuf :=
  C10_skip_price_numbers_identity priceBuf
